import Mathlib

/-!
Verification of the hetman-pipeline handler execution model.

The repository's `src/` tree contains only the public package interface
`src/pipeline/handlers/__init__.py`; the handler, record and engine modules it
imports are not part of the shipped sources.  Following the project
specification, those missing modules are modelled here directly from the
spec's component design (sections 3-7): each such definition carries a doc
comment starting with `Modelled from the spec:`.  The package interface
itself is embedded from the actual source file.
-/

namespace Hetman

/-! ## Data model (spec section 3): values, records, paths -/

mutual
/-- Modelled from the spec: the Record value type (section 3) — one of null,
boolean, integer, float, string, nested record, or ordered sequence of
values.  Floats are embedded as rationals.  The missing module is the
record/data-model module imported by `pipeline.handlers`. -/
inductive Value where
  | nullV : Value
  | boolV (b : Bool) : Value
  | intV (n : Int) : Value
  | floatV (q : Rat) : Value
  | strV (s : String) : Value
  | recV (fs : Fields) : Value
  | seqV (vs : ValueList) : Value

/-- Modelled from the spec: the ordered field mapping of a record — an
ordered association of field name to value (section 3). -/
inductive Fields where
  | nil : Fields
  | cons (k : String) (v : Value) (rest : Fields) : Fields

/-- Modelled from the spec: an ordered sequence of values (section 3). -/
inductive ValueList where
  | nil : ValueList
  | cons (v : Value) (rest : ValueList) : ValueList
end

deriving instance DecidableEq for Value, Fields, ValueList

/-- Modelled from the spec: a Record is an ordered mapping from field name to
value (section 3). -/
structure Record where
  fields : Fields

mutual
/-- Modelled from the spec: structural equality on values — deep value
comparison (section 4.1), used by Match for exact-value patterns. -/
def beqV : Value → Value → Bool
  | .nullV, .nullV => true
  | .boolV a, .boolV b => a == b
  | .intV a, .intV b => a == b
  | .floatV a, .floatV b => a == b
  | .strV a, .strV b => a == b
  | .recV fs, .recV gs => beqFields fs gs
  | .seqV xs, .seqV ys => beqVL xs ys
  | _, _ => false

/-- Modelled from the spec: structural equality on field mappings. -/
def beqFields : Fields → Fields → Bool
  | .nil, .nil => true
  | .cons k v r, .cons k2 v2 r2 => k == k2 && beqV v v2 && beqFields r r2
  | _, _ => false

/-- Modelled from the spec: structural equality on value sequences. -/
def beqVL : ValueList → ValueList → Bool
  | .nil, .nil => true
  | .cons v r, .cons v2 r2 => beqV v v2 && beqVL r r2
  | _, _ => false
end

/-- Modelled from the spec: structural equality of records (deep value
comparison, section 4.1). -/
def Record.structEq (a b : Record) : Bool :=
  beqFields a.fields b.fields

/-- Modelled from the spec: one segment of a dotted/indexed field path
(section 4.1): a field name or a sequence index. -/
inductive Seg where
  | fieldS (k : String) : Seg
  | idxS (i : Nat) : Seg
deriving DecidableEq

/-- Modelled from the spec: a dotted/indexed field path (section 4.1). -/
abbrev Path := List Seg

/-- Modelled from the spec: the single failure mode of `Record.get`
(section 4.1): a path segment is absent. -/
inductive RecErr where
  | fieldNotFound : RecErr
deriving DecidableEq

/-- Look up a field name in an ordered field mapping (first occurrence). -/
def findField : Fields → String → Option Value
  | .nil, _ => none
  | .cons k v rest, t => if k = t then some v else findField rest t

/-- Set/overwrite a field at the top level of a field mapping: overwrite the
first occurrence, or append when the name is absent. -/
def setField : Fields → String → Value → Fields
  | .nil, t, v => .cons t v .nil
  | .cons k w rest, t, v =>
    if k = t then .cons t v rest else .cons k w (setField rest t v)

/-- Remove every binding of a field name from a field mapping (field names
are unique by the record invariant, so at most one is present). -/
def removeField : Fields → String → Fields
  | .nil, _ => .nil
  | .cons k w rest, t =>
    if k = t then removeField rest t else .cons k w (removeField rest t)

/-- Index into a value sequence. -/
def nthVL : ValueList → Nat → Option Value
  | .nil, _ => none
  | .cons v _, 0 => some v
  | .cons _ rest, i + 1 => nthVL rest i

/-- Replace the value at an index of a value sequence, leaving the sequence
unchanged when the index is out of range. -/
def setNthVL : ValueList → Nat → Value → ValueList
  | .nil, _, _ => .nil
  | .cons _ rest, 0, v => .cons v rest
  | .cons w rest, i + 1, v => .cons w (setNthVL rest i v)

/-- Modelled from the spec: path lookup inside a value — descends one
segment at a time, failing as soon as a segment is absent (section 4.1). -/
def getPath : Value → Path → Except RecErr Value
  | v, [] => .ok v
  | .recV fs, .fieldS k :: rest =>
    match findField fs k with
    | some v => getPath v rest
    | none => .error .fieldNotFound
  | .seqV vs, .idxS i :: rest =>
    match nthVL vs i with
    | some v => getPath v rest
    | none => .error .fieldNotFound
  | _, _ :: _ => .error .fieldNotFound

/-- Modelled from the spec: segment-wise presence of a path in a value —
true exactly when every segment of the path is present (section 4.1 phrases
`get` failure as "any segment is absent"). -/
def hasPath : Value → Path → Bool
  | _, [] => true
  | .recV fs, .fieldS k :: rest =>
    match findField fs k with
    | some v => hasPath v rest
    | none => false
  | .seqV vs, .idxS i :: rest =>
    match nthVL vs i with
    | some v => hasPath v rest
    | none => false
  | _, _ :: _ => false

/-- Build a fresh nested value holding `v` at the remaining path; a sequence
index cannot be created from nothing, so it yields null. -/
def buildPath : Path → Value → Value
  | [], v => v
  | .fieldS k :: rest, v => .recV (.cons k (buildPath rest v) .nil)
  | .idxS _ :: _, _ => .nullV

mutual
/-- Modelled from the spec: copy-on-write path update on a value
(section 4.1, `with`): sets/overwrites the addressed position, creating
absent record fields along the way; a segment that cannot address into the
existing structure (index out of range, or a segment applied to a scalar)
leaves the value unchanged. -/
def setPath : Value → Path → Value → Value
  | _, [], v => v
  | .recV fs, .fieldS k :: rest, v => .recV (setFieldPath fs k rest v)
  | .seqV vs, .idxS i :: rest, v => .seqV (setNthPath vs i rest v)
  | w, _ :: _, _ => w

/-- Set/overwrite along a path below field `k` of a field mapping; an absent
field is created. -/
def setFieldPath : Fields → String → Path → Value → Fields
  | .nil, t, rest, v => .cons t (buildPath rest v) .nil
  | .cons k w fs, t, rest, v =>
    if k = t then .cons t (setPath w rest v) fs
    else .cons k w (setFieldPath fs t rest v)

/-- Set/overwrite along a path below index `i` of a value sequence; an index
out of range leaves the sequence unchanged. -/
def setNthPath : ValueList → Nat → Path → Value → ValueList
  | .nil, _, _, _ => .nil
  | .cons w fs, 0, rest, v => .cons (setPath w rest v) fs
  | .cons w fs, i + 1, rest, v => .cons w (setNthPath fs i rest v)
end

mutual
/-- Modelled from the spec: remove the field/element addressed by a path
from a value; `none` when the path is absent (the Transform `remove` and
`rename` operations require the source to be present). -/
def removePath : Value → Path → Option Value
  | _, [] => none
  | .recV fs, [.fieldS k] =>
    match findField fs k with
    | some _ => some (.recV (removeField fs k))
    | none => none
  | .recV fs, .fieldS k :: s :: rest =>
    match findField fs k with
    | some v =>
      match removePath v (s :: rest) with
      | some v2 => some (.recV (setField fs k v2))
      | none => none
    | none => none
  | .seqV vs, [.idxS i] =>
    match nthVL vs i with
    | some _ => some (.seqV (removeNthVL vs i))
    | none => none
  | .seqV vs, .idxS i :: s :: rest =>
    match nthVL vs i with
    | some v =>
      match removePath v (s :: rest) with
      | some v2 => some (.seqV (setNthVL vs i v2))
      | none => none
    | none => none
  | _, _ :: _ => none

/-- Delete the element at an index of a value sequence. -/
def removeNthVL : ValueList → Nat → ValueList
  | .nil, _ => .nil
  | .cons _ rest, 0 => rest
  | .cons w rest, i + 1 => .cons w (removeNthVL rest i)
end

/-- Modelled from the spec: `Record.get(fieldPath)` — dotted/indexed path
lookup, failing with FieldNotFound when any segment is absent
(section 4.1). -/
def Record.get (R : Record) (p : Path) : Except RecErr Value :=
  getPath (.recV R.fields) p

/-- Segment-wise presence of a path in a record. -/
def Record.hasP (R : Record) (p : Path) : Bool :=
  hasPath (.recV R.fields) p

/-- Modelled from the spec: `Record.with(fieldPath, value)` — returns a new
Record with the field set/overwritten, never mutating the receiver
(section 4.1).  The record root is a field mapping, so a path starting with
an index segment (or the empty path) designates no field and returns an
unchanged copy. -/
def Record.withP (R : Record) (p : Path) (v : Value) : Record :=
  match p with
  | .fieldS k :: rest => ⟨setFieldPath R.fields k rest v⟩
  | _ => R

/-- Remove the field addressed by a path from a record; `none` when the path
is absent. -/
def Record.removeP (R : Record) (p : Path) : Option Record :=
  match removePath (.recV R.fields) p with
  | some (.recV fs) => some ⟨fs⟩
  | _ => none

/-- Modelled from the spec: the pre-call snapshot of a record.  Records have
copy-on-write value semantics (sections 3 and 9), so the snapshot taken
before an operation is the record value itself. -/
def Record.snapshot (R : Record) : Record := R

/-- The receiver of `Record.with` once the call has completed.  In the
copy-on-write model the call's only output is its return value, so the
receiver after the call is the same record value. -/
def Record.receiverAfterWith (R : Record) (p : Path) (v : Value) : Record :=
  let _result := R.withP p v
  R

/-! ## Condition handler (spec section 4.2) -/

/-- Modelled from the spec: the numeric view of a value — integers and
floats coerce per standard numeric promotion (section 4.2). -/
def Value.asRat : Value → Option Rat
  | .intV n => some (n : Rat)
  | .floatV q => some q
  | _ => none

/-- Modelled from the spec: a comparison operand of a Condition predicate —
either a literal value or a field resolved via `Record.get`
(section 4.2). -/
inductive Operand where
  | lit (v : Value) : Operand
  | fieldO (p : Path) : Operand

/-- Modelled from the spec: the comparison operator set of Condition
predicates (section 4.2). -/
inductive CmpOp where
  | eq | ne | lt | le | gt | ge
deriving DecidableEq

/-- Modelled from the spec: the Condition predicate expression language —
comparisons, logical connectives, existence and membership tests
(section 4.2).  The missing module is
`pipeline.handlers.condition_handler.condition`. -/
inductive Pred where
  | cmp (op : CmpOp) (a b : Operand) : Pred
  | andP (p q : Pred) : Pred
  | orP (p q : Pred) : Pred
  | notP (p : Pred) : Pred
  | hasF (p : Path) : Pred
  | inF (p : Path) (s : List Value) : Pred

/-- Modelled from the spec: the Condition-local failure of operand
resolution against a missing field (section 4.2). -/
inductive CondErr where
  | missingOperand : CondErr
deriving DecidableEq

/-- Modelled from the spec: operand resolution via `Record.get`; a missing
field fails with MissingOperand (section 4.2). -/
def resolveOperand (o : Operand) (R : Record) : Except CondErr Value :=
  match o with
  | .lit v => .ok v
  | .fieldO p =>
    match R.get p with
    | .ok v => .ok v
    | .error _ => .error .missingOperand

/-- Modelled from the spec: one comparison between resolved values.
Equality and inequality use structural (deep) comparison; the ordering
operators compare numerically with integer/float promotion and fail the
comparison (false) on incomparable types (section 4.2). -/
def compareValues (op : CmpOp) (a b : Value) : Bool :=
  match op with
  | .eq => beqV a b
  | .ne => !(beqV a b)
  | .lt =>
    match a.asRat, b.asRat with
    | some x, some y => decide (x < y)
    | _, _ => false
  | .le =>
    match a.asRat, b.asRat with
    | some x, some y => decide (x ≤ y)
    | _, _ => false
  | .gt =>
    match a.asRat, b.asRat with
    | some x, some y => decide (y < x)
    | _, _ => false
  | .ge =>
    match a.asRat, b.asRat with
    | some x, some y => decide (y ≤ x)
    | _, _ => false

/-- Modelled from the spec: `Condition.evaluate(record) -> boolean`
(section 4.2).  A comparison whose operand resolution fails with
MissingOperand is recovered locally to false; existence and membership
tests against absent data are likewise false; the evaluation is total and
never propagates an error. -/
def Condition.evaluate : Pred → Record → Bool
  | .cmp op a b, R =>
    match resolveOperand a R, resolveOperand b R with
    | .ok x, .ok y => compareValues op x y
    | _, _ => false
  | .andP p q, R => Condition.evaluate p R && Condition.evaluate q R
  | .orP p q, R => Condition.evaluate p R || Condition.evaluate q R
  | .notP p, R => !(Condition.evaluate p R)
  | .hasF p, R => R.hasP p
  | .inF p s, R =>
    match R.get p with
    | .ok v => s.any (fun w => beqV v w)
    | .error _ => false

/-! ## Match handler (spec section 4.3) -/

/-- A branch identifier. -/
abbrev BranchId := String

/-- Modelled from the spec: a Match pattern — exact value, value-set
membership, numeric range with inclusive bounds, or wildcard
(section 4.3). -/
inductive Pattern where
  | exactP (v : Value) : Pattern
  | memP (s : List Value) : Pattern
  | rangeP (lo hi : Rat) : Pattern
  | wildcardP : Pattern

/-- Modelled from the spec: does a pattern match a value (section 4.3)?
Exact and set patterns use structural equality; range patterns apply to
numeric values with inclusive bounds; wildcard matches anything. -/
def patternMatches (p : Pattern) (v : Value) : Bool :=
  match p with
  | .exactP w => beqV v w
  | .memP s => s.any (fun w => beqV v w)
  | .rangeP lo hi =>
    match v.asRat with
    | some x => decide (lo ≤ x) && decide (x ≤ hi)
    | none => false
  | .wildcardP => true

/-- Modelled from the spec: the Match handler configuration — a matched
field path, an ordered sequence of (pattern, branchId) pairs, and a
mandatory default branchId (section 4.3).  The missing module is
`pipeline.handlers.match_handler.match`. -/
structure MatchCfg where
  fieldP : Path
  cases : List (Pattern × BranchId)
  dfault : BranchId

/-- First matching branch of an ordered case list, in declaration order. -/
def firstMatch (v : Value) : List (Pattern × BranchId) → Option BranchId
  | [] => none
  | (p, b) :: rest => if patternMatches p v then some b else firstMatch v rest

/-- Modelled from the spec: `Match.evaluate(record) -> branchId`
(section 4.3): take the value at the configured field path, test patterns
in declaration order, return the first matching branchId; return the
default branch when the field is absent or no pattern matches. -/
def Match.evaluate (m : MatchCfg) (R : Record) : BranchId :=
  match R.get m.fieldP with
  | .error _ => m.dfault
  | .ok v =>
    match firstMatch v m.cases with
    | some b => b
    | none => m.dfault

/-! ## Transform handler (spec section 4.4) -/

/-- Modelled from the spec: the expression of a `set` operation — a literal
value or a read of a field that is required to be present (section 4.4
names "expression references a missing field required to be present" as the
failing case). -/
inductive Expr where
  | litE (v : Value) : Expr
  | fieldE (p : Path) : Expr

/-- Modelled from the spec: the cause of a failing Transform operation
(section 4.4). -/
inductive TCause where
  | missingField : TCause
deriving DecidableEq

/-- Modelled from the spec: evaluate a `set` expression against the current
intermediate record; a referenced field must be present (section 4.4). -/
def evalExpr (e : Expr) (R : Record) : Except TCause Value :=
  match e with
  | .litE v => .ok v
  | .fieldE p =>
    match R.get p with
    | .ok v => .ok v
    | .error _ => .error .missingField

/-- Modelled from the spec: one Transform field operation — set, remove,
rename or copy (section 4.4).  The missing module is
`pipeline.handlers.transform_handler.transform`. -/
inductive FieldOp where
  | setOp (p : Path) (e : Expr) : FieldOp
  | removeOp (p : Path) : FieldOp
  | renameOp (src dst : Path) : FieldOp
  | copyOp (src dst : Path) : FieldOp

/-- Modelled from the spec: apply one field operation to the accumulating
intermediate record (section 4.4).  `remove` and the source of `rename` and
`copy` require the addressed field to be present. -/
def applyOp (op : FieldOp) (R : Record) : Except TCause Record :=
  match op with
  | .setOp p e =>
    match evalExpr e R with
    | .ok v => .ok (R.withP p v)
    | .error c => .error c
  | .removeOp p =>
    match R.removeP p with
    | some R2 => .ok R2
    | none => .error .missingField
  | .renameOp src dst =>
    match R.get src with
    | .ok v =>
      match R.removeP src with
      | some R2 => .ok (R2.withP dst v)
      | none => .error .missingField
    | .error _ => .error .missingField
  | .copyOp src dst =>
    match R.get src with
    | .ok v => .ok (R.withP dst v)
    | .error _ => .error .missingField

/-- Modelled from the spec: the error aborting a whole Transform — the index
of the failing operation and its cause (section 4.4). -/
structure TransformError where
  opIndex : Nat
  cause : TCause
deriving DecidableEq

/-- Apply the remaining operations in declaration order against the
accumulating intermediate record, `i` being the index of the first of them
in the whole configuration. -/
def Transform.applyAux (i : Nat) (ops : List FieldOp) (R : Record) :
    Except TransformError Record :=
  match ops with
  | [] => .ok R
  | op :: rest =>
    match applyOp op R with
    | .ok R2 => Transform.applyAux (i + 1) rest R2
    | .error c => .error ⟨i, c⟩

/-- Modelled from the spec: `Transform.apply(record) -> record'` or a
TransformError failure (section 4.4): operations apply in declaration order
against the accumulating intermediate record, and a failing operation
aborts the whole Transform with its index and cause. -/
def Transform.apply (ops : List FieldOp) (R : Record) :
    Except TransformError Record :=
  Transform.applyAux 0 ops R

/-- The input record of `Transform.apply` once the call has completed; the
call's only output is its return value, so the input after the call is the
same record value. -/
def Record.receiverAfterApply (R : Record) (ops : List FieldOp) : Record :=
  let _result := Transform.apply ops R
  R

/-! ## Pipeline graph and engine (spec sections 3, 4.5, 6, 7) -/

/-- Modelled from the spec: an outgoing routing choice of a node — an edge
to another node, or a terminal sink ending the traversal in Success, or the
designated drop sink ending it in Dropped (sections 3 and 4.5). -/
inductive Edge where
  | toNode (n : String) : Edge
  | doneE : Edge
  | dropE : Edge

/-- Modelled from the spec: a handler definition — its kind-specific
configuration together with the node's outgoing edges (section 3):
Condition nodes carry a true edge and a false edge, Match nodes one edge
per branch identifier, Transform nodes a single outgoing edge. -/
inductive Handler where
  | condH (p : Pred) (tEdge fEdge : Edge) : Handler
  | matchH (cfg : MatchCfg) (edges : List (BranchId × Edge)) : Handler
  | transH (ops : List FieldOp) (next : Edge) : Handler

/-- Modelled from the spec: a pipeline definition — an entry node plus the
handler definitions keyed by node id (sections 3 and 6). -/
structure PipelineDef where
  entry : String
  nodes : List (String × Handler)

/-- Node ids declared by a pipeline definition. -/
def PipelineDef.ids (d : PipelineDef) : List String :=
  d.nodes.map Prod.fst

/-- The handler bound to a node id. -/
def findNode (d : PipelineDef) (n : String) : Option Handler :=
  match d.nodes.find? (fun x => x.1 = n) with
  | some x => some x.2
  | none => none

/-- The node referenced by an edge, when it is not a sink. -/
def edgeTargets : Edge → List String
  | .toNode m => [m]
  | .doneE => []
  | .dropE => []

/-- All node references on a handler's outgoing edges. -/
def handlerSuccs : Handler → List String
  | .condH _ t f => edgeTargets t ++ edgeTargets f
  | .matchH _ edges => edges.flatMap (fun be => edgeTargets be.2)
  | .transH _ nxt => edgeTargets nxt

/-- Successor node ids of a node: the node references on the outgoing edges
of its handler. -/
def succsOf (d : PipelineDef) (n : String) : List String :=
  match findNode d n with
  | some h => handlerSuccs h
  | none => []

/-- One hop along an outgoing edge, as a relation on node ids. -/
def stepRel (d : PipelineDef) (a b : String) : Prop :=
  b ∈ succsOf d a

/-- A node reachable from itself via a non-empty chain of outgoing edges
(spec section 3: "no record re-enters a node it already visited"). -/
def Cyclic (d : PipelineDef) : Prop :=
  ∃ n, Relation.TransGen (stepRel d) n n

/-- One saturation step of the build-time reachability computation: add
every successor of a node already reached. -/
def stepFin (d : PipelineDef) (s : Finset String) : Finset String :=
  s ∪ s.biUnion (fun n => (succsOf d n).toFinset)

/-- Iterated saturation of the build-time reachability computation. -/
def iterFin (d : PipelineDef) : Nat → Finset String → Finset String
  | 0, s => s
  | k + 1, s => stepFin d (iterFin d k s)

/-- Modelled from the spec: the build-time cycle detection (sections 3 and
6) — some node is reachable from one of its own successors. -/
def cycleCheck (d : PipelineDef) : Bool :=
  d.nodes.any fun nh =>
    decide (nh.1 ∈ iterFin d d.nodes.length (succsOf d nh.1).toFinset)

/-- Duplicate-node-id validation of graph build (section 6). -/
def dupFree (d : PipelineDef) : Bool :=
  decide d.ids.Nodup

/-- Unknown-node-reference validation of graph build (section 6): the entry
node and every edge target must be declared node ids. -/
def edgeRefsOk (d : PipelineDef) : Bool :=
  decide (d.entry ∈ d.ids) &&
    d.nodes.all fun nh => (handlerSuccs nh.2).all fun m => decide (m ∈ d.ids)

/-- Missing-default-branch validation of graph build (sections 4.3 and 6):
every Match node has an edge for its default branch and for each declared
pattern's branch. -/
def defaultsOk (d : PipelineDef) : Bool :=
  d.nodes.all fun nh =>
    match nh.2 with
    | .matchH cfg edges =>
      decide (cfg.dfault ∈ edges.map Prod.fst) &&
        cfg.cases.all fun pb => decide (pb.2 ∈ edges.map Prod.fst)
    | _ => true

/-- Modelled from the spec: the configuration-time failures of graph build
(section 6): unknown node reference, missing default branch, cycle
detected, duplicate node id. -/
inductive GraphBuildError where
  | duplicateNodeId : GraphBuildError
  | unknownNodeReference : GraphBuildError
  | missingDefaultBranch : GraphBuildError
  | cycleDetected : GraphBuildError
deriving DecidableEq

/-- Modelled from the spec: a validated, immutable pipeline graph
(section 3): built once from a definition, read-only afterwards. -/
structure Graph where
  pdef : PipelineDef

/-- Modelled from the spec: the graph build interface (section 6): validate
a pipeline definition and return an immutable graph, or reject it with a
GraphBuildError before any record is processed. -/
def buildGraph (d : PipelineDef) : Except GraphBuildError Graph :=
  if dupFree d = false then .error .duplicateNodeId
  else if edgeRefsOk d = false then .error .unknownNodeReference
  else if defaultsOk d = false then .error .missingDefaultBranch
  else if cycleCheck d = true then .error .cycleDetected
  else .ok ⟨d⟩

/-- Modelled from the spec: the error kinds a traversal can terminate with
(section 7): a per-record TransformError, or the defensive
CycleInvariantViolation that build-time validation is meant to rule out. -/
inductive ErrKind where
  | transformE (te : TransformError) : ErrKind
  | cycleInvariantViolation : ErrKind
deriving DecidableEq

/-- Modelled from the spec: the outcome of one record's traversal
(section 6): Success with the final record, Dropped, or Failed. -/
inductive Outcome where
  | success (R : Record) : Outcome
  | dropped : Outcome
  | failed (e : ErrKind) : Outcome

/-- The edge bound to a branch identifier on a Match node. -/
def lookupEdge (edges : List (BranchId × Edge)) (b : BranchId) : Option Edge :=
  match edges.find? (fun be => decide (be.1 = b)) with
  | some be => some be.2
  | none => none

/-- Modelled from the spec: one node dispatch (section 4.5): a Condition
selects its true/false edge, a Match selects the edge of the returned
branchId, a Transform replaces the current record and follows its single
outgoing edge or aborts the record with its TransformError. -/
def handlerRoute (h : Handler) (R : Record) : Except TransformError (Record × Edge) :=
  match h with
  | .condH p t f => .ok (R, if Condition.evaluate p R then t else f)
  | .matchH cfg edges =>
    .ok (R, (lookupEdge edges (Match.evaluate cfg R)).getD .dropE)
  | .transH ops nxt =>
    match Transform.apply ops R with
    | .ok R2 => .ok (R2, nxt)
    | .error te => .error te

/-- Modelled from the spec: the per-record traversal loop (section 4.5).
The visited-node set is the defensive cycle net: a revisit terminates in
Failed CycleInvariantViolation.  The fuel argument makes the recursion
structural; exhausting it (or stepping to an undeclared node) is the same
invariant violation, since either can only happen on a graph whose
build-time validation failed. -/
def traverseFrom (d : PipelineDef) : Nat → List String → String → Record → Outcome
  | 0, _, _, _ => .failed .cycleInvariantViolation
  | fuel + 1, visited, n, R =>
    if n ∈ visited then .failed .cycleInvariantViolation
    else
      match findNode d n with
      | none => .failed .cycleInvariantViolation
      | some h =>
        match handlerRoute h R with
        | .error te => .failed (.transformE te)
        | .ok (R2, .doneE) => .success R2
        | .ok (_, .dropE) => .dropped
        | .ok (R2, .toNode m) => traverseFrom d fuel (n :: visited) m R2

/-- Modelled from the spec: one record's traversal through a built graph
(sections 4.5 and 6), starting at the entry node with an empty visited
set. -/
def runRecord (g : Graph) (R : Record) : Outcome :=
  traverseFrom g.pdef (g.pdef.nodes.length + 1) [] g.pdef.entry R

/-- Modelled from the spec: independent traversals of a batch of records
(sections 4.5 and 5): each record owns its own evaluation context, so a
batch is processed record by record. -/
def runAll (g : Graph) (rs : List Record) : List Outcome :=
  rs.map (runRecord g)

/-! ## The shipped package interface, `src/pipeline/handlers/__init__.py` -/

/-- The import statements of `src/pipeline/handlers/__init__.py`, in source
order, as (module, imported name) pairs. -/
def handlersImports : List (String × String) :=
  [("pipeline.handlers.condition_handler.condition", "Condition"),
   ("pipeline.handlers.match_handler.match", "Match"),
   ("pipeline.handlers.transform_handler.transform", "Transform")]

/-- The `__all__` list of `src/pipeline/handlers/__init__.py`, in source
order. -/
def handlersAllList : List String :=
  ["Condition", "Match", "Transform"]

/-- A name lowercased character by character. -/
def lowerName (n : String) : String :=
  String.mk (n.data.map Char.toLower)

/-- The handler submodule a public handler name is expected to come from:
`pipeline.handlers.<kind>_handler.<kind>` for the lowercased kind. -/
def expectedSubmodule (n : String) : String :=
  "pipeline.handlers." ++ lowerName n ++ "_handler." ++ lowerName n

/-! ## Structural equality is reflexive -/

mutual
theorem beqV_refl : (v : Value) → beqV v v = true
  | .nullV => rfl
  | .boolV b => by simp [beqV]
  | .intV n => by simp [beqV]
  | .floatV q => by simp [beqV]
  | .strV s => by simp [beqV]
  | .recV fs => by simpa [beqV] using beqFields_refl fs
  | .seqV vs => by simpa [beqV] using beqVL_refl vs

theorem beqFields_refl : (fs : Fields) → beqFields fs fs = true
  | .nil => rfl
  | .cons k v rest => by
    simp [beqFields, beqV_refl v, beqFields_refl rest]

theorem beqVL_refl : (vs : ValueList) → beqVL vs vs = true
  | .nil => rfl
  | .cons v rest => by
    simp [beqVL, beqV_refl v, beqVL_refl rest]
end

/-! ## Path lookup and path presence agree -/

theorem hasPath_iff_getPath_ok (p : Path) :
    ∀ v : Value, hasPath v p = true ↔ ∃ w, getPath v p = Except.ok w := by
  induction p with
  | nil =>
    intro v
    simp [hasPath, getPath]
  | cons s rest ih =>
    intro v
    cases v with
    | recV fs =>
      cases s with
      | fieldS k =>
        cases hf : findField fs k with
        | none => simp [hasPath, getPath, hf]
        | some w => simpa [hasPath, getPath, hf] using ih w
      | idxS i => simp [hasPath, getPath]
    | seqV vs =>
      cases s with
      | fieldS k => simp [hasPath, getPath]
      | idxS i =>
        cases hf : nthVL vs i with
        | none => simp [hasPath, getPath, hf]
        | some w => simpa [hasPath, getPath, hf] using ih w
    | nullV => simp [hasPath, getPath]
    | boolV b => simp [hasPath, getPath]
    | intV n => simp [hasPath, getPath]
    | floatV q => simp [hasPath, getPath]
    | strV t => simp [hasPath, getPath]

theorem getPath_total (v : Value) (p : Path) :
    getPath v p = Except.error RecErr.fieldNotFound ∨ ∃ w, getPath v p = Except.ok w := by
  cases hg : getPath v p with
  | error e => cases e; exact Or.inl rfl
  | ok w => exact Or.inr ⟨w, rfl⟩

theorem hasPath_false_iff (v : Value) (p : Path) :
    hasPath v p = false ↔ getPath v p = Except.error RecErr.fieldNotFound := by
  constructor
  · intro h
    rcases getPath_total v p with hg | ⟨w, hg⟩
    · exact hg
    · have : hasPath v p = true := (hasPath_iff_getPath_ok p v).mpr ⟨w, hg⟩
      rw [this] at h
      cases h
  · intro hg
    cases hh : hasPath v p with
    | false => rfl
    | true =>
      rcases (hasPath_iff_getPath_ok p v).mp hh with ⟨w, hw⟩
      rw [hg] at hw
      cases hw

/-- C9: For every record R and dotted/indexed field path p, `Record.get`
fails with FieldNotFound exactly when some segment of p is absent in R, and
otherwise returns the value at that path.  Segment-wise presence is the
predicate `Record.hasP`, which walks the path one segment at a time. -/
theorem record_get_fieldNotFound_iff (R : Record) (p : Path) :
    (R.get p = Except.error RecErr.fieldNotFound ↔ R.hasP p = false)
    ∧ (R.hasP p = true → ∃ v, R.get p = Except.ok v) := by
  constructor
  · exact ⟨fun h => (hasPath_false_iff _ p).mpr h, fun h => (hasPath_false_iff _ p).mp h⟩
  · intro h
    exact (hasPath_iff_getPath_ok p _).mp h

theorem record_get_fieldNotFound_iff_witness :
    (Record.mk (Fields.cons "age" (Value.intV 17) Fields.nil)).hasP [Seg.fieldS "age"] = true
    ∧ ∃ v, (Record.mk (Fields.cons "age" (Value.intV 17) Fields.nil)).get [Seg.fieldS "age"]
        = Except.ok v := by
  refine ⟨by decide, ?_⟩
  exact (record_get_fieldNotFound_iff
    (Record.mk (Fields.cons "age" (Value.intV 17) Fields.nil)) [Seg.fieldS "age"]).2 (by decide)

/-- C6: Records are immutable: `Record.with` returns a new record and never
mutates its receiver, and `Transform.apply` leaves its input record
structurally equal to the pre-call snapshot.  In the copy-on-write model a
call's only output is its return value, so the receiver after each call is
compared against the snapshot with the deep structural equality of
section 4.1. -/
theorem record_immutability (R : Record) (p : Path) (v : Value) (ops : List FieldOp) :
    Record.structEq (R.receiverAfterWith p v) R.snapshot = true
    ∧ Record.structEq (R.receiverAfterApply ops) R.snapshot = true := by
  refine ⟨?_, ?_⟩ <;>
    simpa [Record.receiverAfterWith, Record.receiverAfterApply, Record.snapshot,
      Record.structEq] using beqFields_refl R.fields

/-- C7: Condition evaluation is deterministic: two calls of
`Condition.evaluate` on the same configuration and record return the same
boolean.  The evaluation is a pure function of the configuration and the
record — it has no other input and mutates no external state. -/
theorem condition_evaluate_deterministic (C : Pred) (R : Record) (b1 b2 : Bool)
    (h1 : Condition.evaluate C R = b1) (h2 : Condition.evaluate C R = b2) :
    b1 = b2 :=
  h1.symm.trans h2

theorem resolveOperand_absent (p : Path) (R : Record) (h : R.hasP p = false) :
    resolveOperand (Operand.fieldO p) R = Except.error CondErr.missingOperand := by
  have hg : R.get p = Except.error RecErr.fieldNotFound :=
    (hasPath_false_iff _ p).mp h
  simp [resolveOperand, Record.get] at hg ⊢
  rw [hg]

/-- C3: A comparison whose operand field is absent from the input record
evaluates to false: the MissingOperand failure of operand resolution is
recovered locally inside `Condition.evaluate`, which is total (it returns a
boolean for every predicate and record) and never propagates the error. -/
theorem condition_missing_operand_false (op : CmpOp) (a b : Operand) (R : Record)
    (h : (∃ p, a = Operand.fieldO p ∧ R.hasP p = false)
      ∨ (∃ p, b = Operand.fieldO p ∧ R.hasP p = false)) :
    Condition.evaluate (Pred.cmp op a b) R = false := by
  rcases h with ⟨p, ha, hp⟩ | ⟨p, hb, hp⟩
  · subst ha
    rw [Condition.evaluate, resolveOperand_absent p R hp]
  · subst hb
    rw [Condition.evaluate, resolveOperand_absent p R hp]
    cases resolveOperand a R <;> rfl

theorem condition_missing_operand_false_witness :
    Condition.evaluate
      (Pred.cmp CmpOp.ge (Operand.fieldO [Seg.fieldS "age"]) (Operand.lit (Value.intV 18)))
      (Record.mk (Fields.cons "status" (Value.strV "active") Fields.nil)) = false :=
  condition_missing_operand_false CmpOp.ge
    (Operand.fieldO [Seg.fieldS "age"]) (Operand.lit (Value.intV 18))
    (Record.mk (Fields.cons "status" (Value.strV "active") Fields.nil))
    (Or.inl ⟨[Seg.fieldS "age"], rfl, by decide⟩)

theorem condition_evaluate_deterministic_witness :
    Condition.evaluate (Pred.hasF [Seg.fieldS "status"])
      (Record.mk (Fields.cons "status" (Value.strV "active") Fields.nil)) = true :=
  condition_evaluate_deterministic (Pred.hasF [Seg.fieldS "status"])
    (Record.mk (Fields.cons "status" (Value.strV "active") Fields.nil))
    (Condition.evaluate (Pred.hasF [Seg.fieldS "status"])
      (Record.mk (Fields.cons "status" (Value.strV "active") Fields.nil)))
    true rfl rfl

/-! ## Match: first-match-wins and the default fallback -/

theorem firstMatch_of_prefix_misses (v : Value) (p1 : Pattern) (b1 : BranchId)
    (post : List (Pattern × BranchId)) :
    ∀ pre : List (Pattern × BranchId),
      (∀ c ∈ pre, patternMatches c.1 v = false) →
      patternMatches p1 v = true →
      firstMatch v (pre ++ (p1, b1) :: post) = some b1 := by
  intro pre
  induction pre with
  | nil =>
    intro _ h1
    simp [firstMatch, h1]
  | cons c rest ih =>
    intro hpre h1
    have hc : patternMatches c.1 v = false := hpre c (List.mem_cons_self c rest)
    have hrest : ∀ x ∈ rest, patternMatches x.1 v = false :=
      fun x hx => hpre x (List.mem_cons_of_mem c hx)
    cases c with
    | mk cp cb =>
      simp only [List.cons_append, firstMatch]
      rw [hc]
      simpa using ih hrest h1

theorem firstMatch_none_of_all_miss (v : Value) :
    ∀ cs : List (Pattern × BranchId),
      (∀ c ∈ cs, patternMatches c.1 v = false) →
      firstMatch v cs = none := by
  intro cs
  induction cs with
  | nil => intro _; rfl
  | cons c rest ih =>
    intro h
    have hc : patternMatches c.1 v = false := h c (List.mem_cons_self c rest)
    have hrest : ∀ x ∈ rest, patternMatches x.1 v = false :=
      fun x hx => h x (List.mem_cons_of_mem c hx)
    cases c with
    | mk cp cb =>
      simp only [firstMatch]
      rw [hc]
      simpa using ih hrest

/-- C1: `Match.evaluate` tests patterns in declaration order and returns the
branchId of the first matching pattern: whenever the configured field holds
value v, every pattern declared before (pattern, branch) fails on v and that
pattern matches v, the result is that branch — in particular, when an
overlapping later pattern also matches, the earlier declaration wins. -/
theorem match_first_match_wins (m : MatchCfg) (R : Record) (v : Value)
    (pre : List (Pattern × BranchId)) (p1 : Pattern) (b1 : BranchId)
    (post : List (Pattern × BranchId))
    (hget : R.get m.fieldP = Except.ok v)
    (hcases : m.cases = pre ++ (p1, b1) :: post)
    (hpre : ∀ c ∈ pre, patternMatches c.1 v = false)
    (h1 : patternMatches p1 v = true) :
    Match.evaluate m R = b1 := by
  have hfm := firstMatch_of_prefix_misses v p1 b1 post pre hpre h1
  simp [Match.evaluate, hget, hcases, hfm]

theorem match_first_match_wins_witness :
    Match.evaluate
      (MatchCfg.mk [Seg.fieldS "status"]
        [(Pattern.exactP (Value.strV "inactive"), "i"),
         (Pattern.exactP (Value.strV "active"), "first"),
         (Pattern.wildcardP, "second")]
        "dflt")
      (Record.mk (Fields.cons "status" (Value.strV "active") Fields.nil)) = "first" :=
  match_first_match_wins
    (MatchCfg.mk [Seg.fieldS "status"]
      [(Pattern.exactP (Value.strV "inactive"), "i"),
       (Pattern.exactP (Value.strV "active"), "first"),
       (Pattern.wildcardP, "second")]
      "dflt")
    (Record.mk (Fields.cons "status" (Value.strV "active") Fields.nil))
    (Value.strV "active")
    [(Pattern.exactP (Value.strV "inactive"), "i")]
    (Pattern.exactP (Value.strV "active")) "first"
    [(Pattern.wildcardP, "second")]
    rfl rfl (by decide) (by decide)

/-- C2: `Match.evaluate` is total — it returns a branchId for every
configuration and record by its very type — and the returned branchId is
the configured default whenever the field is absent (the premise is then
vacuous) or every declared pattern fails on the field's value. -/
theorem match_default_fallback (m : MatchCfg) (R : Record)
    (h : ∀ v, R.get m.fieldP = Except.ok v → ∀ c ∈ m.cases, patternMatches c.1 v = false) :
    Match.evaluate m R = m.dfault := by
  cases hget : R.get m.fieldP with
  | error e => simp [Match.evaluate, hget]
  | ok v =>
    have hfm := firstMatch_none_of_all_miss v m.cases (h v hget)
    simp [Match.evaluate, hget, hfm]

theorem match_default_fallback_witness :
    Match.evaluate
      (MatchCfg.mk [Seg.fieldS "status"]
        [(Pattern.exactP (Value.strV "active"), "a")]
        "dflt")
      (Record.mk (Fields.cons "age" (Value.intV 17) Fields.nil)) = "dflt" :=
  match_default_fallback
    (MatchCfg.mk [Seg.fieldS "status"]
      [(Pattern.exactP (Value.strV "active"), "a")]
      "dflt")
    (Record.mk (Fields.cons "age" (Value.intV 17) Fields.nil))
    (fun _v hv => Except.noConfusion hv)

/-! ## Top-level field operations: lookup after set and remove -/

theorem findField_setOne_self (k : String) (v : Value) :
    (fs : Fields) → findField (setFieldPath fs k [] v) k = some v
  | .nil => by simp [setFieldPath, buildPath, findField]
  | .cons k0 w rest => by
    by_cases hk : k0 = k
    · subst hk
      simp [setFieldPath, setPath, findField]
    · simp [setFieldPath, findField, hk, findField_setOne_self k v rest]

theorem findField_setOne_ne (k t : String) (v : Value) (hne : t ≠ k) :
    (fs : Fields) → findField (setFieldPath fs k [] v) t = findField fs t
  | .nil => by simp [setFieldPath, buildPath, findField, Ne.symm hne]
  | .cons k0 w rest => by
    by_cases hk : k0 = k
    · subst hk
      simp [setFieldPath, setPath, findField, Ne.symm hne]
    · simp only [setFieldPath, if_neg hk, findField]
      by_cases ht : k0 = t
      · simp [ht]
      · simp [ht, findField_setOne_ne k t v hne rest]

theorem findField_removeField_self (k : String) :
    (fs : Fields) → findField (removeField fs k) k = none
  | .nil => by simp [removeField, findField]
  | .cons k0 w rest => by
    by_cases hk : k0 = k
    · simp [removeField, hk, findField_removeField_self k rest]
    · simp [removeField, hk, findField, findField_removeField_self k rest]

theorem findField_removeField_ne (k t : String) (hne : t ≠ k) :
    (fs : Fields) → findField (removeField fs k) t = findField fs t
  | .nil => by simp [removeField]
  | .cons k0 w rest => by
    by_cases hk : k0 = k
    · simp [removeField, hk, findField, Ne.symm hne, findField_removeField_ne k t hne rest]
    · simp only [removeField, if_neg hk, findField]
      by_cases ht : k0 = t
      · simp [ht]
      · simp [ht, findField_removeField_ne k t hne rest]

theorem record_get_one_some (fs : Fields) (k : String) (v : Value)
    (h : findField fs k = some v) :
    Record.get ⟨fs⟩ [Seg.fieldS k] = Except.ok v := by
  simp [Record.get, getPath, h]

theorem record_get_one_inv (fs : Fields) (k : String) (v : Value)
    (h : Record.get ⟨fs⟩ [Seg.fieldS k] = Except.ok v) :
    findField fs k = some v := by
  cases hf : findField fs k with
  | none => simp [Record.get, getPath, hf] at h
  | some w =>
    simp [Record.get, getPath, hf] at h
    rw [h]

theorem record_hasP_one_none (fs : Fields) (k : String)
    (h : findField fs k = none) :
    Record.hasP ⟨fs⟩ [Seg.fieldS k] = false := by
  simp [Record.hasP, hasPath, h]

/-- C4: Transform operations apply in declaration order against the
accumulating intermediate record: for the configuration
set(a, expression reading b); rename(b, c) on a record containing field b,
the set reads the original b, and the result has fields a and c but not b —
sequential intermediate visibility. -/
theorem transform_sequential_visibility (R : Record) (a b c : String)
    (hab : a ≠ b) (hcb : c ≠ b) (hac : a ≠ c)
    (v : Value) (hb : R.get [Seg.fieldS b] = Except.ok v) :
    ∃ R2,
      Transform.apply
        [FieldOp.setOp [Seg.fieldS a] (Expr.fieldE [Seg.fieldS b]),
         FieldOp.renameOp [Seg.fieldS b] [Seg.fieldS c]] R = Except.ok R2
      ∧ R2.get [Seg.fieldS a] = Except.ok v
      ∧ R2.get [Seg.fieldS c] = Except.ok v
      ∧ R2.hasP [Seg.fieldS b] = false := by
  obtain ⟨fs⟩ := R
  have hfb : findField fs b = some v := record_get_one_inv fs b v hb
  have hF1b : findField (setFieldPath fs a [] v) b = some v := by
    rw [findField_setOne_ne a b v (Ne.symm hab)]
    exact hfb
  have h1 : applyOp (FieldOp.setOp [Seg.fieldS a] (Expr.fieldE [Seg.fieldS b]))
      ⟨fs⟩ = Except.ok ⟨setFieldPath fs a [] v⟩ := by
    simp [applyOp, evalExpr, hb, Record.withP]
  have hget1 : Record.get ⟨setFieldPath fs a [] v⟩ [Seg.fieldS b] = Except.ok v :=
    record_get_one_some _ b v hF1b
  have hrem : Record.removeP ⟨setFieldPath fs a [] v⟩ [Seg.fieldS b]
      = some ⟨removeField (setFieldPath fs a [] v) b⟩ := by
    simp [Record.removeP, removePath, hF1b]
  have h2 : applyOp (FieldOp.renameOp [Seg.fieldS b] [Seg.fieldS c])
      ⟨setFieldPath fs a [] v⟩
      = Except.ok ⟨setFieldPath (removeField (setFieldPath fs a [] v) b) c [] v⟩ := by
    simp [applyOp, hget1, hrem, Record.withP]
  refine ⟨⟨setFieldPath (removeField (setFieldPath fs a [] v) b) c [] v⟩, ?_, ?_, ?_, ?_⟩
  · simp [Transform.apply, Transform.applyAux, h1, h2]
  · apply record_get_one_some
    rw [findField_setOne_ne c a v hac, findField_removeField_ne b a hab,
      findField_setOne_self a v]
  · apply record_get_one_some
    rw [findField_setOne_self c v]
  · apply record_hasP_one_none
    rw [findField_setOne_ne c b v (Ne.symm hcb), findField_removeField_self b]

theorem transform_sequential_visibility_witness :
    ∃ R2,
      Transform.apply
        [FieldOp.setOp [Seg.fieldS "a"] (Expr.fieldE [Seg.fieldS "b"]),
         FieldOp.renameOp [Seg.fieldS "b"] [Seg.fieldS "c"]]
        (Record.mk (Fields.cons "b" (Value.intV 7) Fields.nil)) = Except.ok R2
      ∧ R2.get [Seg.fieldS "a"] = Except.ok (Value.intV 7)
      ∧ R2.get [Seg.fieldS "c"] = Except.ok (Value.intV 7)
      ∧ R2.hasP [Seg.fieldS "b"] = false :=
  transform_sequential_visibility
    (Record.mk (Fields.cons "b" (Value.intV 7) Fields.nil))
    "a" "b" "c" (by decide) (by decide) (by decide) (Value.intV 7) rfl

theorem applyAux_append (rest : List FieldOp) :
    ∀ (pre : List FieldOp) (i : Nat) (R Rmid : Record),
      Transform.applyAux i pre R = Except.ok Rmid →
      Transform.applyAux i (pre ++ rest) R
        = Transform.applyAux (i + pre.length) rest Rmid := by
  intro pre
  induction pre with
  | nil =>
    intro i R Rmid h
    simp [Transform.applyAux] at h
    subst h
    simp
  | cons op pre2 ih =>
    intro i R Rmid h
    cases hop : applyOp op R with
    | error c =>
      rw [Transform.applyAux, hop] at h
      cases h
    | ok R1 =>
      have h2 : Transform.applyAux (i + 1) pre2 R1 = Except.ok Rmid := by
        rw [Transform.applyAux, hop] at h
        exact h
      have h3 := ih (i + 1) R1 Rmid h2
      have hlen : i + 1 + pre2.length = i + (pre2.length + 1) := by omega
      rw [hlen] at h3
      show Transform.applyAux i (op :: (pre2 ++ rest)) R
        = Transform.applyAux (i + (pre2.length + 1)) rest Rmid
      rw [Transform.applyAux, hop]
      exact h3

/-- C5: A failing field operation aborts the whole Transform with a
TransformError carrying the index of the failing operation and its cause;
at a Transform node this surfaces as the record's traversal ending in
Failed, and the outcome of each record in a batch depends only on that
record, leaving the other records' traversals unaffected. -/
theorem transform_failure_aborts (pre post : List FieldOp) (op : FieldOp)
    (R Rmid : Record) (c : TCause)
    (hpre : Transform.applyAux 0 pre R = Except.ok Rmid)
    (hop : applyOp op Rmid = Except.error c) :
    Transform.apply (pre ++ op :: post) R
      = Except.error (TransformError.mk pre.length c)
    ∧ (∀ (d : PipelineDef) (n : String) (nxt : Edge) (visited : List String) (fuel : Nat),
        findNode d n = some (Handler.transH (pre ++ op :: post) nxt) →
        n ∉ visited →
        traverseFrom d (fuel + 1) visited n R
          = Outcome.failed (ErrKind.transformE (TransformError.mk pre.length c)))
    ∧ (∀ (g : Graph) (rs1 rs2 : List Record),
        runAll g (rs1 ++ R :: rs2) = runAll g rs1 ++ runRecord g R :: runAll g rs2) := by
  have happly : Transform.apply (pre ++ op :: post) R
      = Except.error (TransformError.mk pre.length c) := by
    rw [Transform.apply, applyAux_append (op :: post) pre 0 R Rmid hpre]
    rw [Transform.applyAux, hop]
    simp
  refine ⟨happly, ?_, ?_⟩
  · intro d n nxt visited fuel hfind hnv
    rw [traverseFrom, if_neg hnv, hfind]
    simp [handlerRoute, happly]
  · intro g rs1 rs2
    simp [runAll]

theorem transform_failure_aborts_witness :
    Transform.apply
      [FieldOp.setOp [Seg.fieldS "flag"] (Expr.litE (Value.strV "minor")),
       FieldOp.setOp [Seg.fieldS "x"] (Expr.fieldE [Seg.fieldS "missing"])]
      (Record.mk Fields.nil)
      = Except.error (TransformError.mk 1 TCause.missingField) :=
  (transform_failure_aborts
    [FieldOp.setOp [Seg.fieldS "flag"] (Expr.litE (Value.strV "minor"))]
    []
    (FieldOp.setOp [Seg.fieldS "x"] (Expr.fieldE [Seg.fieldS "missing"]))
    (Record.mk Fields.nil)
    (Record.mk (Fields.cons "flag" (Value.strV "minor") Fields.nil))
    TCause.missingField rfl rfl).1

/-! ## The public package interface -/

/-- C10: The public interface of the `pipeline.handlers` package is exactly
the three handler kinds: its `__all__` list is exactly Condition, Match,
Transform; each exported name is bound at the top level by the import from
its own handler submodule; and every import binds one of the exported
names, so nothing else is exported. -/
theorem handlers_public_interface :
    handlersAllList = ["Condition", "Match", "Transform"]
    ∧ (∀ n ∈ handlersAllList, (expectedSubmodule n, n) ∈ handlersImports)
    ∧ (∀ mn ∈ handlersImports, mn.2 ∈ handlersAllList) := by
  refine ⟨rfl, ?_, ?_⟩ <;> decide

theorem handlers_public_interface_witness :
    (expectedSubmodule "Match", "Match") ∈ handlersImports :=
  handlers_public_interface.2.1 "Match" (by decide)

/-! ## Graph build: node lookup and edge validation -/

theorem find_node_aux :
    ∀ (l : List (String × Handler)) (n : String), n ∈ l.map Prod.fst →
      ∃ p, l.find? (fun x => decide (x.1 = n)) = some p := by
  intro l
  induction l with
  | nil => intro n hn; cases hn
  | cons x rest ih =>
    intro n hn
    by_cases hx : x.1 = n
    · exact ⟨x, List.find?_cons_of_pos _ (by simpa using hx)⟩
    · have hn2 : n ∈ rest.map Prod.fst := by
        rw [List.map_cons] at hn
        rcases List.mem_cons.mp hn with h | h
        · exact absurd h.symm hx
        · exact h
      obtain ⟨p, hp⟩ := ih n hn2
      exact ⟨p, by rw [List.find?_cons_of_neg _ (by simpa using hx)]; exact hp⟩

theorem findNode_some_of_mem (d : PipelineDef) (n : String) (hn : n ∈ d.ids) :
    ∃ h, findNode d n = some h := by
  obtain ⟨p, hp⟩ := find_node_aux d.nodes n hn
  exact ⟨p.2, by unfold findNode; rw [hp]⟩

theorem findNode_pair_mem (d : PipelineDef) (n : String) (h : Handler)
    (hfind : findNode d n = some h) : (n, h) ∈ d.nodes := by
  unfold findNode at hfind
  cases hx : d.nodes.find? (fun x => x.1 = n) with
  | none => rw [hx] at hfind; cases hfind
  | some x =>
    rw [hx] at hfind
    have hmem := List.mem_of_find?_eq_some hx
    have hpred := List.find?_some hx
    have hx1 : x.1 = n := by simpa using hpred
    cases hfind
    have : x = (n, x.2) := by
      cases x
      simp at hx1
      simp [hx1]
    rwa [this] at hmem

theorem edgeRefsOk_spec (d : PipelineDef) (href : edgeRefsOk d = true) :
    d.entry ∈ d.ids
    ∧ ∀ nh ∈ d.nodes, ∀ m ∈ handlerSuccs nh.2, m ∈ d.ids := by
  unfold edgeRefsOk at href
  simp only [Bool.and_eq_true, decide_eq_true_eq, List.all_eq_true] at href
  exact href

theorem succs_sub_ids (d : PipelineDef) (href : edgeRefsOk d = true) :
    ∀ n m, m ∈ succsOf d n → m ∈ d.ids := by
  intro n m hm
  unfold succsOf at hm
  cases hfind : findNode d n with
  | none => rw [hfind] at hm; cases hm
  | some h =>
    rw [hfind] at hm
    exact (edgeRefsOk_spec d href).2 (n, h) (findNode_pair_mem d n h hfind) m hm

/-! ## Build-time reachability saturation -/

theorem subset_stepFin (d : PipelineDef) (s : Finset String) : s ⊆ stepFin d s :=
  Finset.subset_union_left

theorem stepFin_subset (d : PipelineDef) (N : Finset String)
    (hsucc : ∀ a, ∀ m ∈ succsOf d a, m ∈ N)
    (s : Finset String) (hs : s ⊆ N) : stepFin d s ⊆ N := by
  intro x hx
  rcases Finset.mem_union.mp hx with h | h
  · exact hs h
  · rcases Finset.mem_biUnion.mp h with ⟨a, _, hx2⟩
    exact hsucc a x (List.mem_toFinset.mp hx2)

theorem iterFin_subset (d : PipelineDef) (N : Finset String)
    (hsucc : ∀ a, ∀ m ∈ succsOf d a, m ∈ N)
    (s : Finset String) (hs : s ⊆ N) : ∀ k, iterFin d k s ⊆ N := by
  intro k
  induction k with
  | zero => exact hs
  | succ k ih => exact stepFin_subset d N hsucc _ ih

theorem subset_iterFin (d : PipelineDef) (s : Finset String) :
    ∀ k, s ⊆ iterFin d k s := by
  intro k
  induction k with
  | zero => exact subset_rfl
  | succ k ih => exact ih.trans (subset_stepFin d _)

theorem iterFin_stable (d : PipelineDef) (s : Finset String) (k : Nat)
    (hstab : stepFin d (iterFin d k s) = iterFin d k s) :
    ∀ m, iterFin d (k + m) s = iterFin d k s := by
  intro m
  induction m with
  | zero => rfl
  | succ m ih =>
    show stepFin d (iterFin d (k + m) s) = iterFin d k s
    rw [ih, hstab]

theorem exists_stab (d : PipelineDef) (N : Finset String)
    (hsucc : ∀ a, ∀ m ∈ succsOf d a, m ∈ N)
    (s : Finset String) (hs : s ⊆ N) :
    ∃ k ≤ N.card, stepFin d (iterFin d k s) = iterFin d k s := by
  by_contra hcon
  push_neg at hcon
  have grow : ∀ k, k ≤ N.card + 1 → s.card + k ≤ (iterFin d k s).card := by
    intro k
    induction k with
    | zero => intro _; simp [iterFin]
    | succ k ih =>
      intro hk
      have hne := hcon k (by omega)
      have hss : iterFin d k s ⊂ stepFin d (iterFin d k s) :=
        ssubset_iff_subset_ne.mpr ⟨subset_stepFin d _, fun he => hne he.symm⟩
      have hcard := Finset.card_lt_card hss
      have hih := ih (by omega)
      show s.card + (k + 1) ≤ (stepFin d (iterFin d k s)).card
      omega
  have hbig := grow (N.card + 1) le_rfl
  have hsub := Finset.card_le_card (iterFin_subset d N hsucc s hs (N.card + 1))
  omega

theorem closed_at_fuel (d : PipelineDef) (N : Finset String)
    (hsucc : ∀ a, ∀ m ∈ succsOf d a, m ∈ N)
    (s : Finset String) (hs : s ⊆ N) (fuel : Nat) (hfuel : N.card ≤ fuel) :
    stepFin d (iterFin d fuel s) = iterFin d fuel s := by
  obtain ⟨k, hk, hstab⟩ := exists_stab d N hsucc s hs
  have h1 : iterFin d fuel s = iterFin d k s := by
    have he : fuel = k + (fuel - k) := by omega
    rw [he, iterFin_stable d s k hstab]
  rw [h1, hstab]

theorem reach_mem_closed (d : PipelineDef) (S : Finset String)
    (hclosed : stepFin d S = S) (a b : String)
    (hab : Relation.ReflTransGen (stepRel d) a b) (ha : a ∈ S) : b ∈ S := by
  induction hab with
  | refl => exact ha
  | tail h1 h2 ih =>
    have : _ ∈ stepFin d S :=
      Finset.mem_union_right _ (Finset.mem_biUnion.mpr ⟨_, ih, List.mem_toFinset.mpr h2⟩)
    rwa [hclosed] at this

theorem cycleCheck_of_cyclic (d : PipelineDef)
    (href : edgeRefsOk d = true) (hcyc : Cyclic d) : cycleCheck d = true := by
  obtain ⟨n, hn⟩ := hcyc
  obtain ⟨b, hnb, hbn⟩ := Relation.TransGen.head'_iff.mp hn
  have hsucc : ∀ a, ∀ m ∈ succsOf d a, m ∈ d.ids.toFinset :=
    fun a m hm => List.mem_toFinset.mpr (succs_sub_ids d href a m hm)
  have hs : (succsOf d n).toFinset ⊆ d.ids.toFinset :=
    fun x hx => hsucc n x (List.mem_toFinset.mp hx)
  have hfuel : d.ids.toFinset.card ≤ d.nodes.length := by
    have h1 : d.ids.toFinset.card ≤ d.ids.length := List.toFinset_card_le _
    have h2 : d.ids.length = d.nodes.length := by simp [PipelineDef.ids]
    omega
  have hclosed := closed_at_fuel d d.ids.toFinset hsucc _ hs d.nodes.length hfuel
  have hbS : b ∈ iterFin d d.nodes.length (succsOf d n).toFinset :=
    subset_iterFin d _ d.nodes.length (List.mem_toFinset.mpr hnb)
  have hnS : n ∈ iterFin d d.nodes.length (succsOf d n).toFinset :=
    reach_mem_closed d _ hclosed b n hbn hbS
  have hfind : ∃ h, findNode d n = some h := by
    unfold stepRel succsOf at hnb
    cases hf : findNode d n with
    | none => rw [hf] at hnb; cases hnb
    | some h => exact ⟨h, rfl⟩
  obtain ⟨h, hf⟩ := hfind
  have hpair := findNode_pair_mem d n h hf
  unfold cycleCheck
  rw [List.any_eq_true]
  exact ⟨(n, h), hpair, decide_eq_true hnS⟩

/-! ## Traversal on a validated graph never reports a cycle violation -/

theorem lookupEdge_mem (edges : List (BranchId × Edge)) (b : BranchId) (e : Edge)
    (h : lookupEdge edges b = some e) : ∃ be ∈ edges, be.2 = e := by
  unfold lookupEdge at h
  cases hf : edges.find? (fun be => decide (be.1 = b)) with
  | none => rw [hf] at h; cases h
  | some be =>
    rw [hf] at h
    cases h
    exact ⟨be, List.mem_of_find?_eq_some hf, rfl⟩

theorem route_toNode_mem_succs (d : PipelineDef) (n : String) (h : Handler)
    (R R2 : Record) (m : String)
    (hfind : findNode d n = some h)
    (hroute : handlerRoute h R = Except.ok (R2, Edge.toNode m)) :
    m ∈ succsOf d n := by
  have hm : m ∈ handlerSuccs h := by
    cases h with
    | condH p t f =>
      simp only [handlerRoute, Except.ok.injEq, Prod.mk.injEq] at hroute
      obtain ⟨_, he⟩ := hroute
      cases hc : Condition.evaluate p R with
      | true =>
        rw [hc] at he
        simp at he
        subst he
        simp [handlerSuccs, edgeTargets]
      | false =>
        rw [hc] at he
        simp at he
        subst he
        simp [handlerSuccs, edgeTargets]
    | matchH cfg edges =>
      simp only [handlerRoute, Except.ok.injEq, Prod.mk.injEq] at hroute
      obtain ⟨_, he⟩ := hroute
      cases hl : lookupEdge edges (Match.evaluate cfg R) with
      | none => rw [hl] at he; cases he
      | some e =>
        rw [hl] at he
        simp at he
        subst he
        obtain ⟨be, hbe, hbe2⟩ := lookupEdge_mem edges (Match.evaluate cfg R) _ hl
        simp only [handlerSuccs, List.mem_flatMap]
        exact ⟨be, hbe, by rw [hbe2]; simp [edgeTargets]⟩
    | transH ops nxt =>
      cases ha : Transform.apply ops R with
      | error te => simp [handlerRoute, ha] at hroute
      | ok R3 =>
        simp only [handlerRoute, ha, Except.map_ok, Except.ok.injEq, Prod.mk.injEq] at hroute
        obtain ⟨_, he⟩ := hroute
        subst he
        simp [handlerSuccs, edgeTargets]
  unfold succsOf
  rw [hfind]
  exact hm

theorem buildGraph_ok_inv (d : PipelineDef) (g : Graph)
    (h : buildGraph d = Except.ok g) :
    g.pdef = d ∧ dupFree d = true ∧ edgeRefsOk d = true ∧ cycleCheck d = false := by
  unfold buildGraph at h
  by_cases h1 : dupFree d = false
  · rw [if_pos h1] at h; cases h
  rw [if_neg h1] at h
  by_cases h2 : edgeRefsOk d = false
  · rw [if_pos h2] at h; cases h
  rw [if_neg h2] at h
  by_cases h3 : defaultsOk d = false
  · rw [if_pos h3] at h; cases h
  rw [if_neg h3] at h
  by_cases h4 : cycleCheck d = true
  · rw [if_pos h4] at h; cases h
  rw [if_neg h4] at h
  cases h
  refine ⟨rfl, ?_, ?_, ?_⟩
  · cases hb : dupFree d
    · exact absurd hb h1
    · rfl
  · cases hb : edgeRefsOk d
    · exact absurd hb h2
    · rfl
  · cases hb : cycleCheck d
    · rfl
    · exact absurd hb h4

theorem traverse_no_cycle_violation (d : PipelineDef)
    (href : edgeRefsOk d = true) (hnc : ¬Cyclic d) :
    ∀ (fuel : Nat) (visited : List String) (n : String) (R : Record),
      visited.Nodup →
      (∀ v ∈ visited, v ∈ d.ids) →
      n ∈ d.ids →
      (∀ v ∈ visited, Relation.TransGen (stepRel d) v n) →
      d.ids.length + 1 ≤ fuel + visited.length →
      traverseFrom d fuel visited n R ≠ Outcome.failed ErrKind.cycleInvariantViolation := by
  intro fuel
  induction fuel with
  | zero =>
    intro visited n R hvn hvi _ _ harith
    exfalso
    have h1 : visited.toFinset.card = visited.length := List.toFinset_card_of_nodup hvn
    have h2 : visited.toFinset ⊆ d.ids.toFinset :=
      fun x hx => List.mem_toFinset.mpr (hvi x (List.mem_toFinset.mp hx))
    have h3 := Finset.card_le_card h2
    have h4 : d.ids.toFinset.card ≤ d.ids.length := List.toFinset_card_le _
    omega
  | succ fuel ih =>
    intro visited n R hvn hvi hni hvt harith
    by_cases hnv : n ∈ visited
    · exact absurd ⟨n, hvt n hnv⟩ hnc
    obtain ⟨h, hfind⟩ := findNode_some_of_mem d n hni
    cases hroute : handlerRoute h R with
    | error te => simp [traverseFrom, hnv, hfind, hroute]
    | ok p =>
      obtain ⟨R2, e⟩ := p
      cases e with
      | doneE => simp [traverseFrom, hnv, hfind, hroute]
      | dropE => simp [traverseFrom, hnv, hfind, hroute]
      | toNode m =>
        have hgoal : traverseFrom d (fuel + 1) visited n R
            = traverseFrom d fuel (n :: visited) m R2 := by
          simp [traverseFrom, hnv, hfind, hroute]
        rw [hgoal]
        have hm : m ∈ succsOf d n := route_toNode_mem_succs d n h R R2 m hfind hroute
        have hmid : m ∈ d.ids := succs_sub_ids d href n m hm
        apply ih (n :: visited) m R2
        · exact List.nodup_cons.mpr ⟨hnv, hvn⟩
        · intro v hv
          rcases List.mem_cons.mp hv with hv1 | hv2
          · rw [hv1]; exact hni
          · exact hvi v hv2
        · exact hmid
        · intro v hv
          rcases List.mem_cons.mp hv with hv1 | hv2
          · rw [hv1]; exact Relation.TransGen.single hm
          · exact (hvt v hv2).tail hm
        · simp only [List.length_cons]
          omega

/-- A two-node pipeline definition whose nodes form a cycle. -/
def cyclicDemo : PipelineDef :=
  PipelineDef.mk "A"
    [("A", Handler.transH [] (Edge.toNode "B")),
     ("B", Handler.transH [] (Edge.toNode "A"))]

/-- C8: A pipeline definition containing a node reachable from itself via
outgoing edges is rejected by graph build with a GraphBuildError, before
any record is processed; and on a successfully built graph no record's
traversal ever ends in the defensive CycleInvariantViolation — a cycle is
never first detected at traversal time. -/
theorem graph_cycles_rejected_at_build (d : PipelineDef) :
    (Cyclic d → ∃ e, buildGraph d = Except.error e)
    ∧ (∀ g, buildGraph d = Except.ok g →
        ∀ R, runRecord g R ≠ Outcome.failed ErrKind.cycleInvariantViolation) := by
  constructor
  · intro hcyc
    by_cases h1 : dupFree d = false
    · exact ⟨GraphBuildError.duplicateNodeId, by simp [buildGraph, h1]⟩
    by_cases h2 : edgeRefsOk d = false
    · exact ⟨GraphBuildError.unknownNodeReference, by simp [buildGraph, h1, h2]⟩
    by_cases h3 : defaultsOk d = false
    · exact ⟨GraphBuildError.missingDefaultBranch, by simp [buildGraph, h1, h2, h3]⟩
    · have href : edgeRefsOk d = true := by
        cases hb : edgeRefsOk d
        · exact absurd hb h2
        · rfl
      have hcc := cycleCheck_of_cyclic d href hcyc
      exact ⟨GraphBuildError.cycleDetected, by simp [buildGraph, h1, h2, h3, hcc]⟩
  · intro g hok R
    obtain ⟨hg, _, href, hcc⟩ := buildGraph_ok_inv d g hok
    have hnc : ¬Cyclic d := fun hcyc => by
      rw [cycleCheck_of_cyclic d href hcyc] at hcc
      cases hcc
    have hentry : d.entry ∈ d.ids := (edgeRefsOk_spec d href).1
    rw [runRecord, hg]
    apply traverse_no_cycle_violation d href hnc (d.nodes.length + 1) [] d.entry R
    · exact List.nodup_nil
    · intro v hv; cases hv
    · exact hentry
    · intro v hv; cases hv
    · simp [PipelineDef.ids]

theorem graph_cycles_rejected_at_build_witness :
    ∃ e, buildGraph cyclicDemo = Except.error e := by
  apply (graph_cycles_rejected_at_build cyclicDemo).1
  exact ⟨"A",
    @Relation.TransGen.tail String (stepRel cyclicDemo) "A" "B" "A"
      (@Relation.TransGen.single String (stepRel cyclicDemo) "A" "B"
        (show "B" ∈ succsOf cyclicDemo "A" by decide))
      (show "A" ∈ succsOf cyclicDemo "B" by decide)⟩

end Hetman
